import Mathlib

/-!
Verification of the invoice-guided auto-labeling pipeline
(`collect.py`, `invoice_parser.py`).

Strings are modelled as `List Char` (ASCII-faithful: Python's Unicode
case folding and Unicode whitespace beyond the common code points are
modelled for the ASCII range plus the standard Unicode space code
points, which is exact for every input appearing in the claims).
Python floats are modelled as `ℚ`; every numeric literal the code
manipulates (prices with two decimals, similarity ratios) is exactly
representable, so no rounding divergence arises.
-/

namespace Collect

/-- The Python regex whitespace class (for `str` patterns): ASCII
whitespace, the C1 separator controls, NEL, NBSP and the Unicode space
code points. -/
def isWSChar (c : Char) : Bool :=
  (9 ≤ c.toNat && c.toNat ≤ 13) || c.toNat == 32 ||
  (28 ≤ c.toNat && c.toNat ≤ 31) || c.toNat == 133 || c.toNat == 160 ||
  c.toNat == 0x1680 || (0x2000 ≤ c.toNat && c.toNat ≤ 0x200a) ||
  c.toNat == 0x2028 || c.toNat == 0x2029 || c.toNat == 0x202f ||
  c.toNat == 0x205f || c.toNat == 0x3000

/-- ASCII lower-casing of one character, as `str.lower` acts on ASCII. -/
def pyLowerChar (c : Char) : Char :=
  if 65 ≤ c.toNat ∧ c.toNat ≤ 90 then Char.ofNat (c.toNat + 32) else c

/-- `s.lower()`. -/
def pyLower (s : List Char) : List Char := s.map pyLowerChar

/-- The character class kept by `normalize`: the complement of the
pattern `[^a-z0-9\s\-\.]` in `collect.py` line 31. -/
def allowedNormChar (c : Char) : Bool :=
  (97 ≤ c.toNat && c.toNat ≤ 122) || (48 ≤ c.toNat && c.toNat ≤ 57) ||
  isWSChar c || c.toNat == 45 || c.toNat == 46

/-- `re.sub(r"[^a-z0-9\s\-\.]", " ", s)`: every character outside the
class is replaced by a single space (not deleted). -/
def subDisallowed (s : List Char) : List Char :=
  s.map (fun c => if allowedNormChar c then c else ' ')

/-- Scanner for `re.sub(r"\s+", " ", s)`: replaces each maximal
whitespace run by one space.  The flag records whether the previous
character was whitespace (i.e. whether we are inside a run). -/
def collapseWSAux : Bool → List Char → List Char
  | _, [] => []
  | prev, c :: cs =>
    if isWSChar c then
      if prev then collapseWSAux true cs else ' ' :: collapseWSAux true cs
    else c :: collapseWSAux false cs

/-- `re.sub(r"\s+", " ", s)`. -/
def collapseWS (s : List Char) : List Char := collapseWSAux false s

/-- Remove trailing whitespace (the right half of `str.strip`). -/
def rstripWS : List Char → List Char
  | [] => []
  | c :: cs =>
    match rstripWS cs with
    | [] => if isWSChar c then [] else [c]
    | r => c :: r

/-- `str.strip()`. -/
def stripWS (s : List Char) : List Char := rstripWS (s.dropWhile isWSChar)

/-- `normalize` from `collect.py` lines 29-33: lower-case, replace each
disallowed character by a space, collapse whitespace runs, strip. -/
def normalize (s : List Char) : List Char :=
  stripWS (collapseWS (subDisallowed (pyLower s)))

/-- Split into whitespace-separated segments, keeping empty segments
(one per boundary), so that `splitWSAux` is never the empty list. -/
def splitWSAux : List Char → List (List Char)
  | [] => [[]]
  | c :: cs =>
    match splitWSAux cs with
    | [] => [[c]]
    | w :: ws => if isWSChar c then [] :: w :: ws else (c :: w) :: ws

/-- The whitespace-separated words of a string (Python `s.split()`). -/
def splitWS (s : List Char) : List (List Char) :=
  (splitWSAux s).filter (fun w => !w.isEmpty)

/-- Join word lists with single spaces (Python `" ".join(ws)`). -/
def joinWords : List (List Char) → List Char
  | [] => []
  | [w] => w
  | w :: ws => w ++ ' ' :: joinWords ws

/-- The amended specification reading of `normalize`: lower-case,
replace every disallowed character by a space, then collapse
whitespace runs to single spaces and trim — realised independently as
splitting into whitespace-free words and re-joining with single
spaces. -/
def normalizeSpecAmended (s : List Char) : List Char :=
  joinWords (splitWS (subDisallowed (pyLower s)))

/-- The claim's literal reading of `normalize`: lower-case, DELETE
every disallowed character, then collapse whitespace and trim. -/
def normalizeClaimDeleted (s : List Char) : List Char :=
  stripWS (collapseWS ((pyLower s).filter allowedNormChar))

/-- The words hanging off the right of the current word, each preceded
by one separating space. -/
def glueTail (ws : List (List Char)) : List Char :=
  ((ws.filter (fun w => !w.isEmpty)).map (fun v => ' ' :: v)).flatten

/-- The value of `strip`-after-`collapse` in terms of the whitespace
split: the (possibly empty) leading segment, then the remaining
nonempty words each preceded by one space. -/
def glue : List (List Char) → List Char
  | [] => []
  | w :: ws => w ++ glueTail ws

/-!
The similarity score.  `score_match` (collect.py lines 35-36) is
`SequenceMatcher(None, normalize(a), normalize(b)).ratio()`.  With no
junk (autojunk never fires below 200 elements) `find_longest_match`
returns, among all maximal matching blocks, the one of greatest
length, breaking ties by least start in `a`, then least start in `b`;
`get_matching_blocks` recurses on the regions left and right of the
chosen block, and `ratio` is `2*M/(len(a)+len(b))` where `M` is the
total matched size — or `1.0` when both sequences are empty
(`_calculate_ratio`).  The recursion is realised with explicit fuel
(one unit per recursion level); the top-level fuel
`len(a)+len(b)+1` strictly exceeds the recursion depth, since the
size `(ahi-alo)+(bhi-blo)` of the region strictly decreases at each
level. -/

/-- Length of the longest common prefix of two lists. -/
def commonPrefixLen : List Char → List Char → Nat
  | a :: as, b :: bs => if a = b then commonPrefixLen as bs + 1 else 0
  | _, _ => 0

/-- The slice `s[i:hi]`. -/
def sliceFrom (s : List Char) (i hi : Nat) : List Char :=
  (s.drop i).take (hi - i)

/-- One candidate step of `find_longest_match`: the match starting at
`(i, j)` has length the common prefix of the two region-bounded
suffixes; it replaces the current best only if strictly longer. -/
def lmStep (a b : List Char) (ahi bhi : Nat) (i j : Nat)
    (best : Nat × Nat × Nat) : Nat × Nat × Nat :=
  let L := commonPrefixLen (sliceFrom a i ahi) (sliceFrom b j bhi)
  if best.2.2 < L then (i, j, L) else best

/-- Scan of all starts `j` in `[blo, bhi)` for a fixed `i`. -/
def lmInner (a b : List Char) (ahi blo bhi : Nat) (i : Nat)
    (best : Nat × Nat × Nat) : Nat × Nat × Nat :=
  (List.range' blo (bhi - blo)).foldl (fun acc j => lmStep a b ahi bhi i j acc) best

/-- `find_longest_match(alo, ahi, blo, bhi)`: the longest matching
block `(i, j, k)`, ties broken by least `i` then least `j` (the
strict-improvement scan realises exactly CPython's tie-breaking). -/
def findLongestMatch (a b : List Char) (alo ahi blo bhi : Nat) : Nat × Nat × Nat :=
  (List.range' alo (ahi - alo)).foldl
    (fun acc i => lmInner a b ahi blo bhi i acc) (alo, blo, 0)

/-- Total matched size of `get_matching_blocks` restricted to the
region `[alo, ahi) × [blo, bhi)`, with fuel. -/
def matchTotalF (a b : List Char) : Nat → Nat → Nat → Nat → Nat → Nat
  | 0, _, _, _, _ => 0
  | fuel + 1, alo, ahi, blo, bhi =>
    let r := findLongestMatch a b alo ahi blo bhi
    if r.2.2 = 0 then 0
    else
      matchTotalF a b fuel alo r.1 blo r.2.1 + r.2.2 +
      matchTotalF a b fuel (r.1 + r.2.2) ahi (r.2.1 + r.2.2) bhi

/-- `sum(k for (i, j, k) in get_matching_blocks())`. -/
def matchTotal (a b : List Char) : Nat :=
  matchTotalF a b (a.length + b.length + 1) 0 a.length 0 b.length

/-- `score_match(a, b)` (collect.py lines 35-36): the SequenceMatcher
ratio of the two normalized strings. -/
def score_match (a b : List Char) : ℚ :=
  let na := normalize a
  let nb := normalize b
  if na.length + nb.length = 0 then 1
  else (2 * (matchTotal na nb : ℚ)) / ((na.length + nb.length : Nat) : ℚ)

/-!
`apply_corrections` (collect.py lines 20-27).  `str.replace` performs
literal, case-sensitive, left-to-right, non-overlapping replacement of
every occurrence; replaced text is not rescanned.  On typed string
pairs `out.replace(bad, good)` cannot raise, so the
swallow-and-continue `except` branch is unreachable in this model.
-/

/-- `pat` is a prefix of `s`. -/
def leadsWith : List Char → List Char → Bool
  | [], _ => true
  | _ :: _, [] => false
  | p :: ps, c :: cs => p == c && leadsWith ps cs

/-- Left-to-right non-overlapping replacement scan, with fuel (at
least one character is consumed per step, so `length + 1` fuel always
suffices). -/
def pyReplaceAux (bad good : List Char) : Nat → List Char → List Char
  | 0, s => s
  | _ + 1, [] => []
  | fuel + 1, c :: cs =>
    if leadsWith bad (c :: cs) then
      good ++ pyReplaceAux bad good fuel ((c :: cs).drop bad.length)
    else c :: pyReplaceAux bad good fuel cs

/-- Python `s.replace(bad, good)` (including the empty-pattern case,
which inserts `good` at every boundary). -/
def pyReplace (s bad good : List Char) : List Char :=
  if bad.isEmpty then good ++ (s.map (fun c => c :: good)).flatten
  else pyReplaceAux bad good (s.length + 1) s

/-- `apply_corrections(s, corr)`: fold of `str.replace` over the pairs
in iteration (= insertion) order. -/
def apply_corrections (s : List Char) : List (List Char × List Char) → List Char
  | [] => s
  | (bad, good) :: rest => apply_corrections (pyReplace s bad good) rest

/-- Number of occurrences of `pat` in `s` (all start positions). -/
def countOcc (pat : List Char) : List Char → Nat
  | [] => if pat.isEmpty then 1 else 0
  | c :: cs => (if leadsWith pat (c :: cs) then 1 else 0) + countOcc pat cs

end Collect

namespace InvoiceParser

open Collect

/-!
The invoice structurer (`invoice_parser.py`).  The regular expressions
of `normalize_common_errors`, `_item_no_re`, `_price_re` and the two
quantity patterns are realised as direct scanners with Python's
backtracking semantics worked out on the concrete patterns:

* a word boundary adjacent to a digit-or-letter run holds exactly when
  the neighbouring character is not a word character, since shrinking
  the greedy run only exposes more word characters;
* a greedy whitespace run followed by a non-whitespace requirement can
  only succeed at its maximal extent for the same reason;
* the money pattern is anchored at the line end, so a search hit is
  the least start position whose entire suffix matches one of the
  three alternatives.

`float(...)` and `int(...)` on the matched tokens cannot fail (the
tokens are digit strings, optionally with one decimal point), so the
`except` defaults are unreachable in this model.
-/

/-- Python regex `\w` on ASCII. -/
def isWordChar (c : Char) : Bool :=
  (48 ≤ c.toNat && c.toNat ≤ 57) || (65 ≤ c.toNat && c.toNat ≤ 90) ||
  (97 ≤ c.toNat && c.toNat ≤ 122) || c.toNat == 95

def isDigitChar (c : Char) : Bool := 48 ≤ c.toNat && c.toNat ≤ 57

/-- A word boundary lies after the scanned text iff the next character
is not a word character (or the string ends). -/
def boundaryAfter : List Char → Bool
  | [] => true
  | c :: _ => !isWordChar c

/-- Attempt `\b10O?p\b` (case-insensitive) at the current position,
greedy on the optional letter; returns the rest after the match. -/
def tryMatch10p : List Char → Option (List Char)
  | '1' :: '0' :: rest =>
    match rest with
    | o :: p :: rest2 =>
      if (o == 'O' || o == 'o') && (p == 'p' || p == 'P') && boundaryAfter rest2 then
        some rest2
      else if (o == 'p' || o == 'P') && boundaryAfter (p :: rest2) then
        some (p :: rest2)
      else none
    | [p] => if (p == 'p' || p == 'P') then some [] else none
    | [] => none
  | _ => none

/-- `re.sub(r"\b10O?p\b", "100pc", s, flags=IGNORECASE)`: scan with
the previous-character word-ness tracked for the leading boundary. -/
def sub10pAux : Nat → Bool → List Char → List Char
  | 0, _, s => s
  | _ + 1, _, [] => []
  | fuel + 1, prevW, c :: cs =>
    match (if prevW then none else tryMatch10p (c :: cs)) with
    | some rest => ('1' :: '0' :: '0' :: 'p' :: 'c' :: []) ++ sub10pAux fuel true rest
    | none => c :: sub10pAux fuel (isWordChar c) cs

def sub10p (s : List Char) : List Char := sub10pAux (s.length + 1) false s

/-- `re.sub(r"^[\{\[\(]+(?=\d)", "", s)`: the bracket run positions
`0..r-1` hold only brackets, so the lookahead can succeed only at the
full run; strip it iff the first character after the run is a digit. -/
def stripLeadBrackets (s : List Char) : List Char :=
  let run := s.takeWhile (fun c => c == '{' || c == '[' || c == '(')
  let rest := s.drop run.length
  match rest with
  | d :: _ => if 1 ≤ run.length && isDigitChar d then rest else s
  | [] => s

/-- Character class kept by `re.sub(r"[^0-9a-zA-Z\s\.\-\/%:]", " ", s)`. -/
def allowedCEChar (c : Char) : Bool :=
  isDigitChar c || (65 ≤ c.toNat && c.toNat ≤ 90) ||
  (97 ≤ c.toNat && c.toNat ≤ 122) || isWSChar c ||
  c.toNat == 46 || c.toNat == 45 || c.toNat == 47 || c.toNat == 37 ||
  c.toNat == 58

/-- `normalize_common_errors` (invoice_parser.py lines 105-110). -/
def normalize_common_errors (s : List Char) : List Char :=
  stripWS (collapseWS
    ((stripLeadBrackets (sub10p s)).map
      (fun c => if allowedCEChar c then c else ' ')))

/-- `_item_no_re.search(clean)` for `^\s*(\d{4,})\b`: leading
whitespace, then at least four digits, then a word boundary; returns
the digit group and the end offset of the match. -/
def itemNoMatch (s : List Char) : Option (List Char × Nat) :=
  let ws := s.takeWhile isWSChar
  let rest := s.drop ws.length
  let ds := rest.takeWhile isDigitChar
  if 4 ≤ ds.length && boundaryAfter (rest.drop ds.length) then
    some (ds, ws.length + ds.length)
  else none

/-- `[0-9]{1,3}(,[0-9]{3})*` after its first group. -/
def commaGroups : List Char → Bool
  | [] => true
  | ',' :: d1 :: d2 :: d3 :: rest =>
    isDigitChar d1 && isDigitChar d2 && isDigitChar d3 && commaGroups rest
  | _ => false

/-- `[0-9]{1,3}(,[0-9]{3})*` as a full match of `l`. -/
def groupsOK (l : List Char) : Bool :=
  let ds := l.takeWhile isDigitChar
  (1 ≤ ds.length && ds.length ≤ 3) && commaGroups (l.drop ds.length)

/-- The string ends in `.` followed by two digits. -/
def endsDotDD (s : List Char) : Bool :=
  match s.reverse with
  | d2 :: d1 :: dot :: _ => isDigitChar d2 && isDigitChar d1 && dot == '.'
  | _ => false

/-- First alternative of `_price_re` as a full match. -/
def moneyAlt1 (s : List Char) : Bool :=
  endsDotDD s && groupsOK (s.take (s.length - 3))

/-- Second alternative `\d+\.[0-9]{2}` as a full match. -/
def moneyAlt2 (s : List Char) : Bool :=
  endsDotDD s &&
    (let h := s.take (s.length - 3)
     !h.isEmpty && h.all isDigitChar)

/-- Third alternative `\d+` as a full match. -/
def moneyAlt3 (s : List Char) : Bool := !s.isEmpty && s.all isDigitChar

/-- Some alternative of `_price_re` matches the entire string. -/
def moneyFull (s : List Char) : Bool := moneyAlt1 s || moneyAlt2 s || moneyAlt3 s

/-- `_price_re.search(clean)`: the pattern is anchored at `$`, so the
match is the least start index whose whole suffix is a money token;
returns that index and the matched token. -/
def priceSearchFrom : Nat → List Char → Option (Nat × List Char)
  | _, [] => none
  | i, c :: cs =>
    if moneyFull (c :: cs) then some (i, c :: cs) else priceSearchFrom (i + 1) cs

def priceSearch (s : List Char) : Option (Nat × List Char) := priceSearchFrom 0 s

def digitsToNat (l : List Char) : Nat :=
  l.foldl (fun a c => a * 10 + (c.toNat - 48)) 0

/-- `float(price_str.replace(",", ""))` on a matched money token. -/
def parseMoney (s : List Char) : ℚ :=
  let t := s.filter (fun c => c != ',')
  let ip := t.takeWhile isDigitChar
  match t.drop ip.length with
  | '.' :: fr => (digitsToNat ip : ℚ) + (digitsToNat fr : ℚ) / 100
  | _ => (digitsToNat ip : ℚ)

/-- `(\d+)\b` after the optional parts of the first quantity pattern:
a maximal digit run followed by a word boundary. -/
def qDigits (s : List Char) : Option Nat :=
  let ds := s.takeWhile isDigitChar
  if !ds.isEmpty && boundaryAfter (s.drop ds.length) then some (digitsToNat ds)
  else none

/-- Attempt `qty\s*[:x]?\s*(\d+)\b` (case-insensitive) at the current
position (the leading boundary is checked by the caller); the greedy
optional class character is tried first, falling back to omitting it. -/
def tryQ1 : List Char → Option Nat
  | q :: t :: y :: rest =>
    if (q == 'q' || q == 'Q') && (t == 't' || t == 'T') && (y == 'y' || y == 'Y') then
      let r1 := rest.dropWhile isWSChar
      let withClass :=
        match r1 with
        | c :: r2 =>
          if c == ':' || c == 'x' || c == 'X' then qDigits (r2.dropWhile isWSChar)
          else none
        | [] => none
      match withClass with
      | some n => some n
      | none => qDigits r1
    else none
  | _ => none

/-- `re.search(r"\bqty\s*[:x]?\s*(\d+)\b", s, flags=IGNORECASE)`. -/
def q1SearchAux : Nat → Bool → List Char → Option Nat
  | 0, _, _ => none
  | _ + 1, _, [] => none
  | fuel + 1, prevW, c :: cs =>
    match (if prevW then none else tryQ1 (c :: cs)) with
    | some n => some n
    | none => q1SearchAux fuel (isWordChar c) cs

def q1Search (s : List Char) : Option Nat := q1SearchAux (s.length + 1) false s

/-- Attempt `(\d+)\s*x\b` (case-insensitive) at the current position. -/
def tryQ2 (s : List Char) : Option Nat :=
  let ds := s.takeWhile isDigitChar
  if ds.isEmpty then none
  else
    match (s.drop ds.length).dropWhile isWSChar with
    | c :: r2 =>
      if (c == 'x' || c == 'X') && boundaryAfter r2 then some (digitsToNat ds)
      else none
    | [] => none

/-- `re.search(r"\b(\d+)\s*x\b", s, flags=IGNORECASE)`. -/
def q2SearchAux : Nat → Bool → List Char → Option Nat
  | 0, _, _ => none
  | _ + 1, _, [] => none
  | fuel + 1, prevW, c :: cs =>
    match (if prevW then none else tryQ2 (c :: cs)) with
    | some n => some n
    | none => q2SearchAux fuel (isWordChar c) cs

def q2Search (s : List Char) : Option Nat := q2SearchAux (s.length + 1) false s

/-- The quantity scan of `line_to_row`: first pattern, or else second. -/
def qtyScan (s : List Char) : Option Nat :=
  match q1Search s with
  | some n => some n
  | none => q2Search s

/-- One structured invoice row (the dict built by `line_to_row`). -/
structure Row where
  item_no : Option (List Char)
  desc : List Char
  qty : Int
  price : Option ℚ
deriving DecidableEq, Repr

/-- `line_to_row` (invoice_parser.py lines 115-132).  Note that the
price branch recomputes `desc` from the whole cleaned line
(`clean[:m_price.start()]`), discarding the item-number removal. -/
def line_to_row (line : List Char) : Row :=
  let clean := normalize_common_errors line
  let withNo :=
    match itemNoMatch clean with
    | some (ds, e) => (some ds, stripWS (clean.drop e))
    | none => (none, clean)
  let withPrice :=
    match priceSearch clean with
    | some (i, tok) => (some (parseMoney tok), stripWS (clean.take i))
    | none => (none, withNo.2)
  let qty : Int :=
    match qtyScan clean with
    | some n => (n : Int)
    | none => 1
  ⟨withNo.1, withPrice.2, qty, withPrice.1⟩

/-- One item of `structure_items`: the parsed row plus per-line
confidence and review flag.  (`round(c, 3)` only affects the decimal
presentation of the stored confidence; the value is kept exact here.) -/
structure Item where
  item_no : Option (List Char)
  desc : List Char
  qty : Int
  price : Option ℚ
  needs_review : Bool
  confidence : ℚ
deriving DecidableEq, Repr

/-- `structure_items(lines, confidences, avg_conf)` (lines 134-143):
one item per line, confidence from the matching index or the document
average, review flag iff confidence is below 0.7. -/
def structure_items (lines : List (List Char)) (confs : List ℚ) (avg : ℚ) :
    List Item :=
  lines.enum.map (fun p =>
    let r := line_to_row p.2
    let c := confs.getD p.1 avg
    ⟨r.item_no, r.desc, r.qty, r.price, decide (c < 7/10), c⟩)

/-- OCR output for one document, as consumed from the OCR provider. -/
structure OcrOut where
  text : List Char
  lines : List (List Char)
  confidences : List ℚ
  avg_conf : ℚ

/-- `extract_invoice` (lines 166-176, the image branch; the PDF branch
differs only in how pages are OCRed before the same check): an empty
line list yields the unreadable-invoice error, otherwise the
structured items. -/
def extract_invoice (ocr : OcrOut) : Except (List Char) (List Item) :=
  if ocr.lines.isEmpty then
    .error (String.toList "Invoice unreadable. Please retry or upload PDF.")
  else .ok (structure_items ocr.lines ocr.confidences ocr.avg_conf)

end InvoiceParser

namespace Collect

open InvoiceParser

/-!
The labeling decision engine and run loop of `main`
(collect.py lines 70-145), modelled as pure functions over the OCR
outputs: the best-match scan, the threshold test, the top-5 ranking
for the human-choice step, and the rows appended to the label table.
`main` creates the label file with its header before parsing the
invoice; "the table is untouched" is modelled as no label row being
appended.  The written confidence `f"{score:.3f}"` is kept exact.
-/

/-- One step of the best-match scan: a candidate replaces the current
best only with a strictly greater score. -/
def bestStep (raw : List Char) (acc : Option (List Char) × ℚ)
    (d : List Char) : Option (List Char) × ℚ :=
  let sc := score_match raw d
  if acc.2 < sc then (some d, sc) else acc

/-- The best-match scan (lines 110-114): running best starts at
`(None, 0.0)`. -/
def bestOf (raw : List Char) (descs : List (List Char)) :
    Option (List Char) × ℚ :=
  descs.foldl (bestStep raw) (none, 0)

/-- Stable insertion keeping the earlier element in front on ties, so
the result is exactly Python's stable `sorted(..., reverse=True)`. -/
def insertByDesc (k : List Char → ℚ) (x : List Char) :
    List (List Char) → List (List Char)
  | [] => [x]
  | y :: ys => if k y ≤ k x then x :: y :: ys else y :: insertByDesc k x ys

def sortByDesc (k : List Char → ℚ) : List (List Char) → List (List Char)
  | [] => []
  | x :: xs => insertByDesc k x (sortByDesc k xs)

/-- `sorted(invoice_descs, key=score, reverse=True)[:5]` (line 126). -/
def topFive (raw : List Char) (descs : List (List Char)) : List (List Char) :=
  (sortByDesc (fun d => score_match raw d) descs).take 5

/-- The per-image decision of the loop body. -/
inductive Decision where
  | auto (label : List Char) (conf : ℚ)
  | human (candidates : List (List Char))
deriving DecidableEq, Repr

/-- Lines 116-127: auto-assign iff the best candidate is truthy (a
non-None, nonempty string) and its score reaches the threshold;
otherwise the human-choice step with the top five candidates. -/
def decideImage (raw : List Char) (descs : List (List Char)) (t : ℚ) : Decision :=
  let b := bestOf raw descs
  match b.1 with
  | some d => if !d.isEmpty && decide (t ≤ b.2) then .auto d b.2 else .human (topFive raw descs)
  | none => .human (topFive raw descs)

/-- One appended row of the label table. -/
structure LabelRow where
  filename : List Char
  label : List Char
  confidence : ℚ
  needs_review : Bool
deriving DecidableEq, Repr

/-- The rows appended for one image (lines 116-140): exactly one row
per image — auto (review false), user choice (review true, recomputed
score), or the literal Unmatched row. -/
def processImage (fname raw : List Char) (descs : List (List Char)) (t : ℚ)
    (chooser : List (List Char) → Option (List Char)) : List LabelRow :=
  match decideImage raw descs t with
  | .auto d sc => [⟨fname, d, sc, false⟩]
  | .human cands =>
    match chooser cands with
    | some choice => [⟨fname, choice, score_match raw choice, true⟩]
    | none => [⟨fname, String.toList "Unmatched", 0, true⟩]

/-- `raw = " ".join(lines) if lines else (full_text or "")` (line 106). -/
def imageRaw (o : OcrOut) : List Char :=
  if o.lines.isEmpty then o.text else joinWords o.lines

/-- Fold `apply_corrections` over a correction list in order. -/
def correctedRaw (o : OcrOut) (corr : List (List Char × List Char)) : List Char :=
  apply_corrections (imageRaw o) corr

/-- Observable outcome of one run of `main`. -/
structure RunOutcome where
  exitCode : Nat
  errorMsg : Option (List Char)
  rows : List LabelRow
  processed : Nat
  autoLabeled : Nat
  needsReview : Nat
deriving Repr

/-- The run loop of `main` (lines 81-145) over the already-filtered,
sorted image list: a fatal invoice-extraction error prints the message
and exits with status 0 before any image is touched; otherwise each
image is scored against the nonempty extracted descriptions and
recorded. -/
def runMain (invoiceOcr : OcrOut) (images : List (List Char × OcrOut))
    (corr : List (List Char × List Char)) (t : ℚ)
    (chooser : List (List Char) → Option (List Char)) : RunOutcome :=
  match extract_invoice invoiceOcr with
  | .error e => ⟨0, some e, [], 0, 0, 0⟩
  | .ok items =>
    let descs := (items.map Item.desc).filter (fun d => !d.isEmpty)
    images.foldl
      (fun acc img =>
        let raw := correctedRaw img.2 corr
        let isAuto :=
          match decideImage raw descs t with
          | .auto _ _ => true
          | .human _ => false
        { acc with
          rows := acc.rows ++ processImage img.1 raw descs t chooser
          processed := acc.processed + 1
          autoLabeled := acc.autoLabeled + (if isAuto then 1 else 0)
          needsReview := acc.needsReview + (if isAuto then 0 else 1) })
      ⟨0, none, [], 0, 0, 0⟩

end Collect

namespace Collect

/-! Structural lemmas about the `normalize` pipeline. -/

lemma splitWSAux_ne_nil (s : List Char) : splitWSAux s ≠ [] := by
  cases s with
  | nil => simp [splitWSAux]
  | cons c cs =>
    simp only [splitWSAux]
    cases h : splitWSAux cs with
    | nil => simp
    | cons w ws => by_cases hc : isWSChar c <;> simp [hc]

lemma splitWSAux_dest (s : List Char) :
    ∃ w ws, splitWSAux s = w :: ws := by
  cases h : splitWSAux s with
  | nil => exact absurd h (splitWSAux_ne_nil s)
  | cons w ws => exact ⟨w, ws, rfl⟩

lemma rstripWS_cons_nil {c : Char} {s : List Char} (h : rstripWS s = []) :
    rstripWS (c :: s) = if isWSChar c then [] else [c] := by
  simp only [rstripWS, h]

lemma rstripWS_cons_cons {c : Char} {s r : List Char} {x : Char}
    (h : rstripWS s = x :: r) : rstripWS (c :: s) = c :: x :: r := by
  simp only [rstripWS, h]

lemma dropWhile_collapse_true (s : List Char) :
    (collapseWSAux true s).dropWhile isWSChar = collapseWSAux true s := by
  induction s with
  | nil => simp [collapseWSAux]
  | cons c cs ih =>
    by_cases hc : isWSChar c
    · simpa [collapseWSAux, hc] using ih
    · simp [collapseWSAux, hc, List.dropWhile]

lemma dropWhile_collapse_false (s : List Char) :
    (collapseWSAux false s).dropWhile isWSChar = collapseWSAux true s := by
  induction s with
  | nil => simp [collapseWSAux]
  | cons c cs _ =>
    by_cases hc : isWSChar c
    · simp only [collapseWSAux, hc, if_true, Bool.false_eq_true, if_false]
      rw [List.dropWhile_cons_of_pos (by decide)]
      exact dropWhile_collapse_true cs
    · simp [collapseWSAux, hc, List.dropWhile]

lemma joinWords_cons (w : List Char) (ws : List (List Char)) :
    joinWords (w :: ws) = w ++ (ws.map (fun v => ' ' :: v)).flatten := by
  induction ws generalizing w with
  | nil => simp [joinWords]
  | cons v vs ih => simp [joinWords, ih v]

lemma joinWords_match_glueTail (vs : List (List Char))
    (h : ∀ w ∈ vs, w ≠ []) (hf : vs.filter (fun w => !w.isEmpty) = vs) :
    (match joinWords vs with
      | [] => ([] : List Char)
      | r => ' ' :: r) = glueTail vs := by
  cases vs with
  | nil => simp [joinWords, glueTail]
  | cons v vs' =>
    have hvne : v ≠ [] := h v (List.mem_cons_self _ _)
    have hne : joinWords (v :: vs') ≠ [] := by
      rw [joinWords_cons]
      intro hcontra
      exact hvne (List.append_eq_nil.mp hcontra).1
    cases hj : joinWords (v :: vs') with
    | nil => exact absurd hj hne
    | cons x xs =>
      simp only [glueTail, hf, List.map_cons, List.flatten_cons]
      rw [← hj, joinWords_cons]
      simp

lemma rstrip_collapse (s : List Char) :
    rstripWS (collapseWSAux false s) = glue (splitWSAux s) ∧
    rstripWS (collapseWSAux true s) = joinWords (splitWS s) := by
  induction s with
  | nil => simp [collapseWSAux, rstripWS, splitWSAux, splitWS, glue, glueTail, joinWords]
  | cons c cs ih =>
    obtain ⟨ihP, ihQ⟩ := ih
    obtain ⟨w, ws, hsp⟩ := splitWSAux_dest cs
    by_cases hc : isWSChar c
    · constructor
      · -- flag false, whitespace head: emit one space, continue with flag true
        simp only [collapseWSAux, hc, if_true, Bool.false_eq_true, if_false]
        have hglue : glue (splitWSAux (c :: cs)) = glueTail (splitWSAux cs) := by
          simp [splitWSAux, hsp, hc, glue]
        rw [hglue]
        have hfilter : (splitWS cs).filter (fun w => !w.isEmpty) = splitWS cs := by
          simp only [splitWS, List.filter_filter]
          exact List.filter_congr (fun w _ => by cases w.isEmpty <;> rfl)
        have hwords : ∀ w ∈ splitWS cs, w ≠ [] := by
          intro w hw
          have := List.of_mem_filter hw
          simpa using this
        have hgt : glueTail (splitWSAux cs) = glueTail (splitWS cs) := by
          simp [glueTail, splitWS, hfilter]
        rw [hgt, ← joinWords_match_glueTail (splitWS cs) hwords hfilter]
        cases hq : joinWords (splitWS cs) with
        | nil =>
          have h0 : rstripWS (collapseWSAux true cs) = [] := by rw [ihQ, hq]
          rw [rstripWS_cons_nil h0]
          decide
        | cons x xs =>
          have h0 : rstripWS (collapseWSAux true cs) = x :: xs := by rw [ihQ, hq]
          rw [rstripWS_cons_cons h0]
      · -- flag true, whitespace head: the character is dropped entirely
        simp only [collapseWSAux, hc, if_true]
        have : splitWS (c :: cs) = splitWS cs := by
          simp [splitWS, splitWSAux, hsp, hc]
        rw [this]; exact ihQ
    · -- non-whitespace head: both flags emit the character
      have hstep : rstripWS (c :: collapseWSAux false cs) = c :: glue (splitWSAux cs) := by
        cases hr : rstripWS (collapseWSAux false cs) with
        | nil =>
          have h0 : glue (splitWSAux cs) = [] := by rw [← ihP, hr]
          rw [rstripWS_cons_nil hr, h0, if_neg (by simpa using hc)]
        | cons r rs =>
          have h0 : glue (splitWSAux cs) = r :: rs := by rw [← ihP, hr]
          rw [rstripWS_cons_cons hr, h0]
      have hcoll : ∀ p : Bool, collapseWSAux p (c :: cs) = c :: collapseWSAux false cs := by
        intro p; simp [collapseWSAux, hc]
      constructor
      · rw [hcoll false, hstep]
        have : splitWSAux (c :: cs) = (c :: w) :: ws := by
          simp [splitWSAux, hsp, hc]
        rw [this]
        simp only [glue, hsp, List.cons_append]
      · rw [hcoll true, hstep]
        have h1 : splitWS (c :: cs) = (c :: w) :: ws.filter (fun v => !v.isEmpty) := by
          simp [splitWS, splitWSAux, hsp, hc]
        rw [h1, joinWords_cons]
        simp only [glue, hsp, glueTail, List.cons_append]

/-- The source `normalize` agrees with the independent
split-into-words realisation of collapse-and-trim. -/
lemma normalize_eq_spec (s : List Char) : normalize s = normalizeSpecAmended s := by
  unfold normalize normalizeSpecAmended stripWS collapseWS
  rw [dropWhile_collapse_false]
  exact (rstrip_collapse _).2

lemma mem_splitWSAux_not_ws {w : List Char} {s : List Char}
    (hw : w ∈ splitWSAux s) {c : Char} (hc : c ∈ w) : isWSChar c = false := by
  induction s generalizing w with
  | nil =>
    simp only [splitWSAux, List.mem_singleton] at hw
    subst hw; simp at hc
  | cons d ds ih =>
    obtain ⟨w0, ws0, hsp⟩ := splitWSAux_dest ds
    simp only [splitWSAux, hsp] at hw
    by_cases hd : isWSChar d
    · simp only [hd, if_true] at hw
      rcases List.mem_cons.mp hw with h | h
      · subst h; simp at hc
      · exact ih (by rw [hsp]; exact h) hc
    · simp only [hd, if_false, Bool.false_eq_true] at hw
      rcases List.mem_cons.mp hw with h | h
      · subst h
        rcases List.mem_cons.mp hc with h | h
        · subst h; simpa using hd
        · exact ih (by rw [hsp]; exact List.mem_cons_self _ _) h
      · exact ih (by rw [hsp]; exact List.mem_cons.mpr (Or.inr h)) hc

lemma mem_splitWSAux_mem {w : List Char} {s : List Char}
    (hw : w ∈ splitWSAux s) {c : Char} (hc : c ∈ w) : c ∈ s := by
  induction s generalizing w with
  | nil =>
    simp only [splitWSAux, List.mem_singleton] at hw
    subst hw; simp at hc
  | cons d ds ih =>
    obtain ⟨w0, ws0, hsp⟩ := splitWSAux_dest ds
    simp only [splitWSAux, hsp] at hw
    by_cases hd : isWSChar d
    · simp only [hd, if_true] at hw
      rcases List.mem_cons.mp hw with h | h
      · subst h; simp at hc
      · exact List.mem_cons.mpr (Or.inr (ih (by rw [hsp]; exact h) hc))
    · simp only [hd, if_false, Bool.false_eq_true] at hw
      rcases List.mem_cons.mp hw with h | h
      · subst h
        rcases List.mem_cons.mp hc with h | h
        · exact List.mem_cons.mpr (Or.inl h)
        · exact List.mem_cons.mpr
            (Or.inr (ih (by rw [hsp]; exact List.mem_cons_self _ _) h))
      · exact List.mem_cons.mpr
          (Or.inr (ih (by rw [hsp]; exact List.mem_cons.mpr (Or.inr h)) hc))

lemma mem_joinWords {c : Char} {ws : List (List Char)}
    (h : c ∈ joinWords ws) : c = ' ' ∨ ∃ w ∈ ws, c ∈ w := by
  induction ws with
  | nil => simp [joinWords] at h
  | cons w tail ih =>
    cases tail with
    | nil =>
      simp only [joinWords] at h
      exact Or.inr ⟨w, List.mem_cons_self _ _, h⟩
    | cons v vs =>
      simp only [joinWords] at h
      rcases List.mem_append.mp h with h | h
      · exact Or.inr ⟨w, List.mem_cons_self _ _, h⟩
      · rcases List.mem_cons.mp h with h | h
        · exact Or.inl h
        · rcases ih h with h | ⟨u, hu, hcu⟩
          · exact Or.inl h
          · exact Or.inr ⟨u, List.mem_cons.mpr (Or.inr hu), hcu⟩

lemma mem_subDisallowed {c : Char} {s : List Char}
    (h : c ∈ subDisallowed s) : allowedNormChar c = true := by
  obtain ⟨d, _, hd⟩ := List.mem_map.mp h
  by_cases hall : allowedNormChar d
  · rw [if_pos hall] at hd; subst hd; exact hall
  · rw [if_neg hall] at hd; subst hd; decide

lemma mem_normalize_allowed {c : Char} (s : List Char)
    (h : c ∈ normalize s) : allowedNormChar c = true := by
  rw [normalize_eq_spec, normalizeSpecAmended] at h
  rcases mem_joinWords h with h | ⟨w, hw, hcw⟩
  · subst h; decide
  · have hw' : w ∈ splitWSAux (subDisallowed (pyLower s)) :=
      List.mem_of_mem_filter hw
    exact mem_subDisallowed (mem_splitWSAux_mem hw' hcw)

lemma allowed_pyLowerChar {c : Char} (h : allowedNormChar c = true) :
    pyLowerChar c = c := by
  simp only [allowedNormChar, isWSChar, Bool.or_eq_true, Bool.and_eq_true,
    decide_eq_true_eq, beq_iff_eq] at h
  unfold pyLowerChar
  rw [if_neg]
  omega

lemma map_id_of {f : Char → Char} {l : List Char}
    (h : ∀ c ∈ l, f c = c) : l.map f = l := by
  induction l with
  | nil => rfl
  | cons c cs ih =>
    simp only [List.map_cons, h c (List.mem_cons_self _ _),
      ih (fun d hd => h d (List.mem_cons.mpr (Or.inr hd)))]

lemma splitWSAux_word_append (w : List Char) (t : List Char)
    (w0 : List Char) (ws0 : List (List Char)) (ht : splitWSAux t = w0 :: ws0)
    (hw : ∀ c ∈ w, isWSChar c = false) :
    splitWSAux (w ++ t) = (w ++ w0) :: ws0 := by
  induction w with
  | nil => simpa using ht
  | cons c cs ih =>
    have hcw : isWSChar c = false := hw c (List.mem_cons_self _ _)
    have h2 := ih (fun d hd => hw d (List.mem_cons.mpr (Or.inr hd)))
    rw [List.cons_append]
    simp only [splitWSAux, h2, hcw, Bool.false_eq_true, if_false,
      List.cons_append]

lemma splitWSAux_space (t : List Char) :
    splitWSAux (' ' :: t) = [] :: splitWSAux t := by
  obtain ⟨w0, ws0, ht⟩ := splitWSAux_dest t
  simp [splitWSAux, ht, (by decide : isWSChar ' ' = true)]

lemma splitWS_joinWords (ws : List (List Char))
    (h1 : ∀ w ∈ ws, w ≠ [])
    (h2 : ∀ w ∈ ws, ∀ c ∈ w, isWSChar c = false) :
    splitWS (joinWords ws) = ws := by
  induction ws with
  | nil => rfl
  | cons w tail ih =>
    have hwe : w.isEmpty = false := by
      have := h1 w (List.mem_cons_self _ _)
      cases w with
      | nil => exact absurd rfl this
      | cons _ _ => rfl
    cases tail with
    | nil =>
      have hsp := splitWSAux_word_append w [] [] []
        (by rfl) (h2 w (List.mem_cons_self _ _))
      simp only [List.append_nil] at hsp
      have : joinWords [w] = w := rfl
      rw [splitWS, this, hsp]
      simp [hwe]
    | cons v vs =>
      have hx : joinWords (w :: v :: vs) = w ++ ' ' :: joinWords (v :: vs) := rfl
      obtain ⟨x0, xs0, hX⟩ := splitWSAux_dest (joinWords (v :: vs))
      have hsp0 : splitWSAux (' ' :: joinWords (v :: vs)) =
          [] :: x0 :: xs0 := by rw [splitWSAux_space, hX]
      have hw : splitWSAux (joinWords (w :: v :: vs)) =
          (w ++ []) :: x0 :: xs0 := by
        rw [hx]
        exact splitWSAux_word_append w _ [] (x0 :: xs0) hsp0
          (h2 w (List.mem_cons_self _ _))
      have htail := ih (fun u hu => h1 u (List.mem_cons.mpr (Or.inr hu)))
        (fun u hu => h2 u (List.mem_cons.mpr (Or.inr hu)))
      have htail' : (x0 :: xs0).filter (fun u => !u.isEmpty) = v :: vs := by
        rw [← hX]
        simpa [splitWS] using htail
      rw [splitWS, hw, List.append_nil]
      rw [List.filter_cons_of_pos (by simp [hwe])]
      rw [htail']

lemma splitWS_words_ne_nil {w : List Char} {s : List Char}
    (hw : w ∈ splitWS s) : w ≠ [] := by
  have := List.of_mem_filter hw
  simpa using this

/-! Lemmas about the matcher. -/

lemma commonPrefixLen_self (x : List Char) : commonPrefixLen x x = x.length := by
  induction x with
  | nil => rfl
  | cons a as ih => simp [commonPrefixLen, ih]

lemma commonPrefixLen_le_left (x : List Char) :
    ∀ y, commonPrefixLen x y ≤ x.length := by
  induction x with
  | nil => intro y; cases y <;> simp [commonPrefixLen]
  | cons a as ih =>
    intro y
    cases y with
    | nil => simp [commonPrefixLen]
    | cons b bs =>
      simp only [commonPrefixLen, List.length_cons]
      split
      · exact Nat.succ_le_succ (ih bs)
      · exact Nat.zero_le _

lemma commonPrefixLen_le_right (x : List Char) :
    ∀ y, commonPrefixLen x y ≤ y.length := by
  induction x with
  | nil => intro y; cases y <;> simp [commonPrefixLen]
  | cons a as ih =>
    intro y
    cases y with
    | nil => simp [commonPrefixLen]
    | cons b bs =>
      simp only [commonPrefixLen, List.length_cons]
      split
      · exact Nat.succ_le_succ (ih bs)
      · exact Nat.zero_le _

lemma sliceFrom_length_le (u : List Char) (i hi : Nat) :
    (sliceFrom u i hi).length ≤ hi - i := by
  simp [sliceFrom]

lemma foldl_no_update {α β : Type} (f : α → β → α) (acc : α) (l : List β)
    (h : ∀ x ∈ l, f acc x = acc) : l.foldl f acc = acc := by
  induction l with
  | nil => rfl
  | cons x xs ih =>
    rw [List.foldl_cons, h x (List.mem_cons_self _ _)]
    exact ih (fun y hy => h y (List.mem_cons.mpr (Or.inr hy)))

lemma sliceFrom_zero_full (u : List Char) : sliceFrom u 0 u.length = u := by
  simp [sliceFrom]

lemma findLongestMatch_self (u : List Char) (hu : u ≠ []) :
    findLongestMatch u u 0 u.length 0 u.length = (0, 0, u.length) := by
  obtain ⟨m, hm⟩ : ∃ m, u.length = m + 1 := by
    cases u with
    | nil => exact absurd rfl hu
    | cons c cs => exact ⟨cs.length, rfl⟩
  have hrange : List.range' 0 u.length = 0 :: List.range' 1 m := by
    rw [hm, List.range'_succ]
  have hfirst : lmStep u u u.length u.length 0 0 (0, 0, 0) = (0, 0, u.length) := by
    unfold lmStep
    rw [sliceFrom_zero_full, commonPrefixLen_self]
    simp [hm]
  have hinner0 : lmInner u u u.length 0 u.length 0 (0, 0, 0) = (0, 0, u.length) := by
    unfold lmInner
    rw [Nat.sub_zero, hrange, List.foldl_cons]
    simp only [hfirst]
    apply foldl_no_update
    intro j hj
    obtain ⟨h1j, hjm⟩ : 1 ≤ j ∧ j < 1 + m := by
      have := List.mem_range'_1.mp hj
      omega
    unfold lmStep
    rw [if_neg]
    have hL := le_trans (commonPrefixLen_le_right (sliceFrom u 0 u.length)
      (sliceFrom u j u.length)) (sliceFrom_length_le u j u.length)
    simp only [not_lt]
    omega
  have houter : ∀ i, 1 ≤ i → i < 1 + m →
      lmInner u u u.length 0 u.length i (0, 0, u.length) = (0, 0, u.length) := by
    intro i h1i him
    unfold lmInner
    apply foldl_no_update
    intro j hj
    unfold lmStep
    rw [if_neg]
    have hL := le_trans (commonPrefixLen_le_left (sliceFrom u i u.length)
      (sliceFrom u j u.length)) (sliceFrom_length_le u i u.length)
    simp only [not_lt]
    omega
  unfold findLongestMatch
  rw [Nat.sub_zero, hrange, List.foldl_cons]
  simp only [hinner0]
  apply foldl_no_update
  intro i hi
  obtain ⟨h1i, him⟩ : 1 ≤ i ∧ i < 1 + m := by
    have := List.mem_range'_1.mp hi
    omega
  exact houter i h1i him

lemma matchTotalF_a_degenerate (a b : List Char) (fuel alo blo bhi : Nat) :
    matchTotalF a b fuel alo alo blo bhi = 0 := by
  cases fuel with
  | zero => rfl
  | succ f =>
    have h : findLongestMatch a b alo alo blo bhi = (alo, blo, 0) := by
      unfold findLongestMatch
      rw [Nat.sub_self]
      rfl
    simp [matchTotalF, h]

lemma matchTotalF_b_degenerate (a b : List Char) (fuel alo ahi blo : Nat) :
    matchTotalF a b fuel alo ahi blo blo = 0 := by
  cases fuel with
  | zero => rfl
  | succ f =>
    have h : findLongestMatch a b alo ahi blo blo = (alo, blo, 0) := by
      unfold findLongestMatch
      apply foldl_no_update
      intro i _
      unfold lmInner
      rw [Nat.sub_self]
      rfl
    simp [matchTotalF, h]

lemma matchTotal_self (u : List Char) (hu : u ≠ []) : matchTotal u u = u.length := by
  have hn : u.length ≠ 0 := by
    cases u with
    | nil => exact absurd rfl hu
    | cons c cs => simp
  unfold matchTotal
  simp only [matchTotalF, findLongestMatch_self u hu]
  simp [hn, matchTotalF_a_degenerate]

lemma matchTotal_left_nil (b : List Char) : matchTotal [] b = 0 :=
  matchTotalF_a_degenerate [] b _ _ _ _

lemma matchTotal_right_nil (a : List Char) : matchTotal a [] = 0 :=
  matchTotalF_b_degenerate a [] _ _ _ _

lemma score_match_self (a : List Char) (h : normalize a ≠ []) :
    score_match a a = 1 := by
  have hn : (normalize a).length ≠ 0 := by
    cases hna : normalize a with
    | nil => exact absurd hna h
    | cons c cs => simp [hna]
  simp only [score_match]
  rw [if_neg (by omega)]
  rw [matchTotal_self _ h]
  have hq : ((normalize a).length : ℚ) ≠ 0 := by exact_mod_cast hn
  push_cast
  field_simp
  ring

lemma score_match_zero_left {a b : List Char} (ha : normalize a = [])
    (hb : normalize b ≠ []) : score_match a b = 0 := by
  have hn : (normalize b).length ≠ 0 := by
    cases hnb : normalize b with
    | nil => exact absurd hnb hb
    | cons c cs => simp [hnb]
  simp only [score_match, ha]
  rw [if_neg (show ¬(List.length ([] : List Char) + (normalize b).length = 0) by
    simpa using hn)]
  rw [matchTotal_left_nil]
  simp

lemma score_match_zero_right {a b : List Char} (ha : normalize a ≠ [])
    (hb : normalize b = []) : score_match a b = 0 := by
  have hn : (normalize a).length ≠ 0 := by
    cases hna : normalize a with
    | nil => exact absurd hna ha
    | cons c cs => simp [hna]
  simp only [score_match, hb]
  rw [if_neg (show ¬((normalize a).length + List.length ([] : List Char) = 0) by
    simpa using hn)]
  rw [matchTotal_right_nil]
  simp

lemma score_match_both_empty {a b : List Char} (ha : normalize a = [])
    (hb : normalize b = []) : score_match a b = 1 := by
  simp [score_match, ha, hb]

/-- Evaluation of `score_match` at concrete inputs in terms of the
matched total and the combined length. -/
lemma score_match_concrete (a b na nb : List Char) (M T : Nat)
    (ha : normalize a = na) (hb : normalize b = nb)
    (hM : matchTotal na nb = M) (hT : na.length + nb.length = T)
    (hne : ¬ T = 0) :
    score_match a b = (2 * M : ℚ) / (T : ℚ) := by
  simp only [score_match, ha, hb, hM, hT]
  rw [if_neg hne]

/-! Lemmas about the corrections fold and the decision engine. -/

lemma apply_corrections_foldl (s : List Char)
    (corr : List (List Char × List Char)) :
    apply_corrections s corr =
      corr.foldl (fun t p => pyReplace t p.1 p.2) s := by
  induction corr generalizing s with
  | nil => rfl
  | cons p rest ih =>
    cases p with
    | mk bad good =>
      simp only [apply_corrections, List.foldl_cons]
      exact ih _

lemma bestStep_snd_le (raw : List Char) (acc : Option (List Char) × ℚ)
    (d : List Char) : acc.2 ≤ (bestStep raw acc d).2 := by
  simp only [bestStep]
  split
  · exact le_of_lt (by assumption)
  · exact le_refl _

lemma bestStep_score_le (raw : List Char) (acc : Option (List Char) × ℚ)
    (d : List Char) : score_match raw d ≤ (bestStep raw acc d).2 := by
  simp only [bestStep]
  split
  · exact le_refl _
  · exact le_of_not_lt (by assumption)

lemma foldl_bestStep_mono (raw : List Char) (l : List (List Char))
    (acc : Option (List Char) × ℚ) :
    acc.2 ≤ (l.foldl (bestStep raw) acc).2 := by
  induction l generalizing acc with
  | nil => exact le_refl _
  | cons d l ih =>
    rw [List.foldl_cons]
    exact le_trans (bestStep_snd_le raw acc d) (ih _)

lemma foldl_bestStep_ge (raw : List Char) (l : List (List Char))
    (acc : Option (List Char) × ℚ) :
    ∀ e ∈ l, score_match raw e ≤ (l.foldl (bestStep raw) acc).2 := by
  induction l generalizing acc with
  | nil => intro e he; simp at he
  | cons d l ih =>
    intro e he
    rw [List.foldl_cons]
    rcases List.mem_cons.mp he with h | h
    · subst h
      exact le_trans (bestStep_score_le raw acc e) (foldl_bestStep_mono raw l _)
    · exact ih _ e h

lemma foldl_bestStep_some (raw : List Char) (l : List (List Char))
    (acc : Option (List Char) × ℚ) (d : List Char)
    (h : (l.foldl (bestStep raw) acc).1 = some d) :
    (d ∈ l ∧ score_match raw d = (l.foldl (bestStep raw) acc).2) ∨
    (acc.1 = some d ∧ acc.2 = (l.foldl (bestStep raw) acc).2) := by
  induction l generalizing acc with
  | nil => exact Or.inr ⟨h, rfl⟩
  | cons e l ih =>
    rw [List.foldl_cons] at h ⊢
    rcases ih (bestStep raw acc e) h with hc | ⟨hsome, hsc⟩
    · exact Or.inl ⟨List.mem_cons.mpr (Or.inr hc.1), hc.2⟩
    · by_cases hlt : acc.2 < score_match raw e
      · have he1 : (bestStep raw acc e).1 = some e := by
          simp only [bestStep]
          rw [if_pos hlt]
        have he2 : (bestStep raw acc e).2 = score_match raw e := by
          simp only [bestStep]
          rw [if_pos hlt]
        rw [he1] at hsome
        have hde : d = e := (Option.some_inj.mp hsome).symm
        subst hde
        rw [he2] at hsc
        exact Or.inl ⟨List.mem_cons.mpr (Or.inl rfl), hsc⟩
      · have he1 : (bestStep raw acc e).1 = acc.1 := by
          simp only [bestStep]
          rw [if_neg hlt]
        have he2 : (bestStep raw acc e).2 = acc.2 := by
          simp only [bestStep]
          rw [if_neg hlt]
        rw [he1] at hsome
        rw [he2] at hsc
        exact Or.inr ⟨hsome, hsc⟩

lemma bestOf_some (raw : List Char) (descs : List (List Char))
    (d : List Char) (h : (bestOf raw descs).1 = some d) :
    d ∈ descs ∧ score_match raw d = (bestOf raw descs).2 := by
  rcases foldl_bestStep_some raw descs (none, 0) d h with hc | ⟨hsome, _⟩
  · exact hc
  · simp at hsome

lemma bestOf_ge (raw : List Char) (descs : List (List Char)) :
    ∀ e ∈ descs, score_match raw e ≤ (bestOf raw descs).2 :=
  foldl_bestStep_ge raw descs (none, 0)

lemma bestOf_all_zero (raw : List Char) (descs : List (List Char))
    (h : ∀ d ∈ descs, score_match raw d = 0) :
    bestOf raw descs = (none, 0) := by
  unfold bestOf
  apply foldl_no_update
  intro d hd
  unfold bestStep
  rw [h d hd]
  simp

end Collect

/-! The claim theorems. -/

open Collect InvoiceParser

/-- C3 counterexample: on the input string with an underscore between
two letters, `normalize` yields the two letters separated by a space,
while the claim's delete-the-character reading yields them adjacent,
so the claim is false at this input. -/
theorem C3_counterexample :
    normalize (String.toList "a_b") = String.toList "a b" ∧
    normalizeClaimDeleted (String.toList "a_b") = String.toList "ab" ∧
    normalize (String.toList "a_b") ≠ normalizeClaimDeleted (String.toList "a_b") :=
  ⟨by decide, by decide, by decide⟩

/-- C3 (amended): for every string, `normalize` equals lower-casing,
REPLACING every character that is not a lowercase letter, digit,
whitespace, hyphen, or period by a space, then collapsing whitespace
runs to a single space and trimming — a disallowed character between
two letters becomes a single space rather than being deleted. -/
theorem C3_replaced_by_space (s : List Char) :
    normalize s = normalizeSpecAmended s :=
  normalize_eq_spec s

/-- C6: `normalize` is idempotent: normalizing an already-normalized
string changes nothing. -/
theorem C6_normalize_idempotent (s : List Char) :
    normalize (normalize s) = normalize s := by
  have hall : ∀ c ∈ normalize s, allowedNormChar c = true :=
    fun c hc => mem_normalize_allowed s hc
  have h1 : pyLower (normalize s) = normalize s :=
    map_id_of (fun c hc => allowed_pyLowerChar (hall c hc))
  have h2 : subDisallowed (normalize s) = normalize s :=
    map_id_of (fun c hc => if_pos (hall c hc))
  have hw1 : ∀ w ∈ splitWS (subDisallowed (pyLower s)), w ≠ [] :=
    fun w hw => splitWS_words_ne_nil hw
  have hw2 : ∀ w ∈ splitWS (subDisallowed (pyLower s)), ∀ c ∈ w,
      isWSChar c = false :=
    fun w hw c hc => mem_splitWSAux_not_ws (List.mem_of_mem_filter hw) hc
  have key := splitWS_joinWords (splitWS (subDisallowed (pyLower s))) hw1 hw2
  have hns : splitWS (normalize s) = splitWS (subDisallowed (pyLower s)) := by
    rw [normalize_eq_spec s]
    exact key
  calc normalize (normalize s)
      = joinWords (splitWS (subDisallowed (pyLower (normalize s)))) :=
        normalize_eq_spec (normalize s)
    _ = joinWords (splitWS (normalize s)) := by rw [h1, h2]
    _ = joinWords (splitWS (subDisallowed (pyLower s))) := by rw [hns]
    _ = normalize s := (normalize_eq_spec s).symm

/-- C4 counterexample: the similarity score is not symmetric — on the
normalized strings aba and babba the greedy longest-matching-block
decomposition matches 3 characters one way (ratio 3/4) and only 2 the
other way (ratio 1/2), because the tie among the maximal blocks is
broken by least start in the first argument. -/
theorem C4_counterexample :
    score_match (String.toList "aba") (String.toList "babba") ≠
      score_match (String.toList "babba") (String.toList "aba") := by
  rw [score_match_concrete (String.toList "aba") (String.toList "babba")
    (String.toList "aba") (String.toList "babba") 3 8 (by decide) (by decide)
    (by decide) (by decide) (by norm_num)]
  rw [score_match_concrete (String.toList "babba") (String.toList "aba")
    (String.toList "babba") (String.toList "aba") 2 8 (by decide) (by decide)
    (by decide) (by decide) (by norm_num)]
  norm_num

/-- C4 (amended): the score is symmetric whenever the two arguments
have the same normalized form (in particular on identical strings);
in general the greedy tie-breaking of the block alignment makes the
score depend on the argument order. -/
theorem C4_symmetry_amended (a b : List Char) (h : normalize a = normalize b) :
    score_match a b = score_match b a := by
  simp only [score_match, h]

/-- C4 witness: two different strings with equal normalized forms have
equal scores in both orders. -/
theorem C4_symmetry_amended_witness :
    score_match (String.toList "A b") (String.toList "a  b") =
      score_match (String.toList "a  b") (String.toList "A b") :=
  C4_symmetry_amended _ _ (by decide)

/-- C5 counterexample: when both strings normalize to empty, the score
is 1.0 (the SequenceMatcher ratio of two empty sequences), not 0.0 as
the claim states. -/
theorem C5_counterexample :
    score_match [] [] = 1 ∧ ¬ score_match [] [] = 0 :=
  ⟨by decide, by decide⟩

/-- C5 (amended): `score(a, a) = 1.0` whenever `normalize(a)` is
nonempty; `score(a, b) = 0.0` in both argument orders whenever exactly
one of the two strings normalizes to empty; and when both normalize to
empty the score is 1.0. -/
theorem C5_self_and_empty :
    (∀ a, normalize a ≠ [] → score_match a a = 1) ∧
    (∀ a b, normalize a = [] → normalize b ≠ [] →
      score_match a b = 0 ∧ score_match b a = 0) ∧
    (∀ a b, normalize a = [] → normalize b = [] → score_match a b = 1) :=
  ⟨fun a h => score_match_self a h,
   fun _ _ ha hb => ⟨score_match_zero_left ha hb, score_match_zero_right hb ha⟩,
   fun _ _ ha hb => score_match_both_empty ha hb⟩

/-- C5 witness: the three cases at concrete inputs. -/
theorem C5_self_and_empty_witness :
    score_match (String.toList "ab") (String.toList "ab") = 1 ∧
    score_match [] (String.toList "b") = 0 ∧
    score_match (String.toList "b") [] = 0 ∧
    score_match [] [] = 1 :=
  ⟨C5_self_and_empty.1 _ (by decide),
   (C5_self_and_empty.2.1 [] _ (by decide) (by decide)).1,
   (C5_self_and_empty.2.1 [] _ (by decide) (by decide)).2,
   C5_self_and_empty.2.2 [] [] (by decide) (by decide)⟩

/-- C1 counterexample: on the exact line from the claim, the
description returned by `line_to_row` still CONTAINS the item number
token (and the quantity token), because the price branch recomputes
the description from the whole cleaned line, so the claim's exclusion
of the item number is false at its own example. -/
theorem C1_counterexample :
    0 < countOcc (String.toList "1234")
      (line_to_row (String.toList "1234 Widget A 3 x 12.50")).desc := by
  decide

/-- C1 (amended): on the line from the claim, `line_to_row` returns
item number 1234, quantity 3, price 12.50, and a description that
contains the words Widget A and excludes the price token — but the
description retains the item number and the quantity token, being the
cleaned line truncated at the price match. -/
theorem C1_amended :
    (line_to_row (String.toList "1234 Widget A 3 x 12.50")).item_no =
      some (String.toList "1234") ∧
    (line_to_row (String.toList "1234 Widget A 3 x 12.50")).desc =
      String.toList "1234 Widget A 3 x" ∧
    (line_to_row (String.toList "1234 Widget A 3 x 12.50")).qty = 3 ∧
    (line_to_row (String.toList "1234 Widget A 3 x 12.50")).price =
      some (25 / 2 : ℚ) ∧
    0 < countOcc (String.toList "Widget A")
      (line_to_row (String.toList "1234 Widget A 3 x 12.50")).desc ∧
    countOcc (String.toList "12.50")
      (line_to_row (String.toList "1234 Widget A 3 x 12.50")).desc = 0 ∧
    countOcc (String.toList "3 x")
      (line_to_row (String.toList "1234 Widget A 3 x 12.50")).desc = 1 := by
  have hpm : parseMoney (String.toList "12.50") = 25 / 2 := by
    have e1 : (String.toList "12.50").filter (fun c => c != ',') =
        String.toList "12.50" := by decide
    have e2 : (String.toList "12.50").takeWhile isDigitChar =
        String.toList "12" := by decide
    have e3 : (String.toList "12.50").drop (String.toList "12").length =
        '.' :: String.toList "50" := by decide
    simp only [parseMoney, e1, e2, e3]
    have e4 : digitsToNat (String.toList "12") = 12 := by decide
    have e5 : digitsToNat (String.toList "50") = 50 := by decide
    rw [e4, e5]
    norm_num
  have hprice : (line_to_row (String.toList "1234 Widget A 3 x 12.50")).price =
      some (parseMoney (String.toList "12.50")) := by rfl
  refine ⟨by decide, by decide, by decide, ?_, by decide, by decide, by decide⟩
  rw [hprice, hpm]

/-- C7 counterexample: the line qty 0 parses to a row with quantity 0,
so the claimed invariant that the quantity is always at least 1 fails. -/
theorem C7_counterexample :
    (line_to_row (String.toList "qty 0")).qty = 0 ∧
    ¬ 1 ≤ (line_to_row (String.toList "qty 0")).qty :=
  ⟨by decide, by decide⟩

/-- C7 (amended): for every input line the quantity is a nonnegative
integer, and it defaults to 1 exactly when no quantity pattern matches
the cleaned line; a matched quantity of 0 is kept as 0. -/
theorem C7_qty_amended (line : List Char) :
    0 ≤ (line_to_row line).qty ∧
    (qtyScan (normalize_common_errors line) = none →
      (line_to_row line).qty = 1) := by
  have hq : (line_to_row line).qty =
      (match qtyScan (normalize_common_errors line) with
        | some n => (n : Int)
        | none => 1) := rfl
  constructor
  · rw [hq]
    cases h : qtyScan (normalize_common_errors line) with
    | none => simp
    | some n => simp
  · intro h
    rw [hq, h]

/-- C7 witness: a line with no quantity pattern gets the default 1. -/
theorem C7_qty_amended_witness :
    0 ≤ (line_to_row (String.toList "abc")).qty ∧
    (line_to_row (String.toList "abc")).qty = 1 :=
  ⟨(C7_qty_amended _).1, (C7_qty_amended _).2 (by decide)⟩

/-- C9: applying the correction map is the fold of literal
case-sensitive replacement over the pairs in iteration order, and the
map sending 0oz to 0-space-oz applied to 10oz bottle yields
10-space-oz-space-bottle, which contains the replacement exactly
once. -/
theorem C9_corrections :
    (∀ s corr, apply_corrections s corr =
      corr.foldl (fun t p => pyReplace t p.1 p.2) s) ∧
    apply_corrections (String.toList "10oz bottle")
      [(String.toList "0oz", String.toList "0 oz")] =
      String.toList "10 oz bottle" ∧
    countOcc (String.toList "0 oz")
      (apply_corrections (String.toList "10oz bottle")
        [(String.toList "0oz", String.toList "0 oz")]) = 1 :=
  ⟨fun s corr => apply_corrections_foldl s corr, by decide, by decide⟩

/-- C2: per image, if the best-match scan yields a candidate and its
score reaches the threshold, the decision is AutoLabeled with label =
that candidate, confidence = the best score, and exactly one row with
needs_review false is appended; the recorded candidate belongs to the
description list and realizes the maximum score.  If the best score is
strictly below the threshold the image goes to the human-choice step
with the top-5 ranked candidates. -/
theorem C2_threshold_decision (raw : List Char) (descs : List (List Char))
    (t : ℚ) (fname : List Char)
    (chooser : List (List Char) → Option (List Char))
    (hne : ∀ d ∈ descs, d ≠ []) :
    (∀ d, (bestOf raw descs).1 = some d → t ≤ (bestOf raw descs).2 →
      decideImage raw descs t = Decision.auto d (bestOf raw descs).2 ∧
      processImage fname raw descs t chooser =
        [⟨fname, d, (bestOf raw descs).2, false⟩] ∧
      d ∈ descs ∧ score_match raw d = (bestOf raw descs).2 ∧
      ∀ e ∈ descs, score_match raw e ≤ (bestOf raw descs).2) ∧
    ((bestOf raw descs).2 < t →
      decideImage raw descs t = Decision.human (topFive raw descs)) := by
  constructor
  · intro d hd ht
    obtain ⟨hmem, hsc⟩ := bestOf_some raw descs d hd
    have hde : d.isEmpty = false := by
      have := hne d hmem
      cases d with
      | nil => exact absurd rfl this
      | cons _ _ => rfl
    have hdec : decideImage raw descs t = Decision.auto d (bestOf raw descs).2 := by
      simp only [decideImage, hd, hde, Bool.not_false, Bool.true_and,
        decide_eq_true_eq]
      rw [if_pos ht]
    refine ⟨hdec, ?_, hmem, hsc, bestOf_ge raw descs⟩
    unfold processImage
    rw [hdec]
  · intro hlt
    have hdec : decide (t ≤ (bestOf raw descs).2) = false := by
      simp [not_le.mpr hlt]
    cases hb : (bestOf raw descs).1 with
    | none => simp only [decideImage, hb]
    | some d =>
      simp only [decideImage, hb, hdec, Bool.and_false, if_false]
      rfl

/-- C2 witness: with threshold 0.70, an exact match is auto-labeled
with confidence 1 and review false, and a non-matching image goes to
the human-choice step with the ranked candidates. -/
theorem C2_threshold_decision_witness :
    decideImage (String.toList "ab") [String.toList "ab"] (7/10) =
      Decision.auto (String.toList "ab") 1 ∧
    processImage (String.toList "f.jpg") (String.toList "ab")
      [String.toList "ab"] (7/10) (fun _ => none) =
      [⟨String.toList "f.jpg", String.toList "ab", 1, false⟩] ∧
    decideImage (String.toList "zz") [String.toList "ab"] (7/10) =
      Decision.human (topFive (String.toList "zz") [String.toList "ab"]) := by
  have hs : score_match (String.toList "ab") (String.toList "ab") = 1 :=
    score_match_self _ (by decide)
  have hbest : bestOf (String.toList "ab") [String.toList "ab"] =
      (some (String.toList "ab"), 1) := by
    unfold bestOf
    rw [List.foldl_cons, List.foldl_nil]
    simp only [bestStep, hs]
    norm_num
  have hz : score_match (String.toList "zz") (String.toList "ab") = 0 := by
    rw [score_match_concrete (String.toList "zz") (String.toList "ab")
      (String.toList "zz") (String.toList "ab") 0 4 (by decide) (by decide)
      (by decide) (by decide) (by norm_num)]
    norm_num
  have hbz : bestOf (String.toList "zz") [String.toList "ab"] = (none, 0) := by
    unfold bestOf
    rw [List.foldl_cons, List.foldl_nil]
    simp only [bestStep, hz]
    norm_num
  have h := (C2_threshold_decision (String.toList "ab") [String.toList "ab"]
    (7/10) (String.toList "f.jpg") (fun _ => none) (by decide)).1
    (String.toList "ab") (by rw [hbest]) (by rw [hbest]; norm_num)
  refine ⟨?_, ?_, ?_⟩
  · rw [h.1, hbest]
  · rw [h.2.1, hbest]
  · exact (C2_threshold_decision (String.toList "zz") [String.toList "ab"]
      (7/10) (String.toList "f.jpg") (fun _ => none) (by decide)).2
      (by rw [hbz]; norm_num)

/-- C8: when invoice OCR yields no lines, the run reports the
unreadable-invoice error, exits with status 0, processes no product
image, and appends no row to the label table. -/
theorem C8_unreadable_invoice (invoiceOcr : OcrOut)
    (images : List (List Char × OcrOut)) (corr : List (List Char × List Char))
    (t : ℚ) (chooser : List (List Char) → Option (List Char))
    (h : invoiceOcr.lines = []) :
    runMain invoiceOcr images corr t chooser =
      ⟨0, some (String.toList "Invoice unreadable. Please retry or upload PDF."),
        [], 0, 0, 0⟩ := by
  have he : extract_invoice invoiceOcr = Except.error
      (String.toList "Invoice unreadable. Please retry or upload PDF.") := by
    unfold extract_invoice
    rw [h]
    rfl
  unfold runMain
  rw [he]

/-- C8 witness: a concrete empty-OCR invoice with one pending image
yields the error outcome with no rows and zero processed images. -/
theorem C8_unreadable_invoice_witness :
    runMain ⟨[], [], [], 0⟩
      [(String.toList "a.jpg", ⟨String.toList "x", [String.toList "x"], [1], 1⟩)]
      [] (7/10) (fun _ => none) =
      ⟨0, some (String.toList "Invoice unreadable. Please retry or upload PDF."),
        [], 0, 0, 0⟩ :=
  C8_unreadable_invoice _ _ _ _ _ rfl

/-- C10: if every candidate description scores exactly 0 against the
image's OCR text, the best-match scan returns no best candidate (the
running best starts at 0 and is replaced only on a strictly greater
score), and the image goes to the human-choice step even with
threshold 0. -/
theorem C10_no_positive_score (raw : List Char) (descs : List (List Char))
    (h : ∀ d ∈ descs, score_match raw d = 0) :
    bestOf raw descs = (none, 0) ∧
    decideImage raw descs 0 = Decision.human (topFive raw descs) := by
  have hb := bestOf_all_zero raw descs h
  have hb1 : (bestOf raw descs).1 = none := by rw [hb]
  exact ⟨hb, by simp only [decideImage, hb1]⟩

/-- C10 witness: an image whose OCR text normalizes to empty scores 0
against the single candidate and is sent to the human-choice step at
threshold 0. -/
theorem C10_no_positive_score_witness :
    bestOf [] [String.toList "b"] = (none, 0) ∧
    decideImage [] [String.toList "b"] 0 =
      Decision.human (topFive [] [String.toList "b"]) :=
  C10_no_positive_score _ _ (by
    intro d hd
    have hdb : d = String.toList "b" := by simpa using hd
    subst hdb
    exact score_match_zero_left (by decide) (by decide))
